import Mathlib

/-!
Verification development for the randomized-image generator.

The program is a single Rust binary.  Its generation core consists of:
a 32-bit xorshift generator (`XorShift32` with `next` and `step_forward`),
a per-row seed-derivation scheme and row-parallel buffer fill
(`generate_random_pixels`), two pixel encoders (`pixel_grayscale`,
`pixel_colorful`), and a dimension-overflow guard in `main`.

Machine integers are embedded as `Nat` with explicit reduction modulo
`2 ^ 32` (`wrap32`) exactly where Rust `u32` arithmetic wraps or truncates.
-/

/-- `2 ^ 32`, the modulus of `u32` arithmetic. -/
def UINT32_MOD : Nat := 4294967296

/-- Reduction of a natural number into the `u32` range. -/
def wrap32 (n : Nat) : Nat := n % UINT32_MOD

/-- Rust `u32::wrapping_mul`. -/
def wrapping_mul (a b : Nat) : Nat := wrap32 (a * b)

/-- Rust `u32::wrapping_add`. -/
def wrapping_add (a b : Nat) : Nat := wrap32 (a + b)

/-- Rust `v as u8`: truncation of a `u32` value to its low byte. -/
def u8cast (n : Nat) : Nat := n % 256

/-- First line of the mix in `XorShift32::next`: `x ^= x << 13`.
The Rust left shift on `u32` drops bits shifted past bit 31, hence the
`wrap32`. -/
def pass1 (x : Nat) : Nat := x ^^^ wrap32 (x <<< 13)

/-- Second line of the mix in `XorShift32::next`: `x ^= x >> 17`
(logical right shift on `u32`). -/
def pass2 (x : Nat) : Nat := x ^^^ (x >>> 17)

/-- Third line of the mix in `XorShift32::next`: `x ^= x << 5`. -/
def pass3 (x : Nat) : Nat := x ^^^ wrap32 (x <<< 5)

/-- The complete state mix performed by one call of `XorShift32::next`:
the three xor-shift lines in program order. -/
def nextMix (x : Nat) : Nat := pass3 (pass2 (pass1 x))

/-- The generator struct: a single 32-bit state `x`. -/
structure XorShift32 where
  x : Nat
deriving DecidableEq, Repr

/-- `XorShift32::new(x)`. -/
def XorShift32.new (x : Nat) : XorShift32 := XorShift32.mk x

/-- `XorShift32::next(&mut self) -> u32`: the state is replaced by the
mixed value and the same mixed value is returned.  Embedded as a function
returning the pair (returned value, updated generator). -/
def XorShift32.next (s : XorShift32) : Nat × XorShift32 :=
  (nextMix s.x, XorShift32.mk (nextMix s.x))

/-- `XorShift32::step_forward(self, steps)`: calls `next` exactly `steps`
times, discarding every returned value, and returns the final generator. -/
def XorShift32.step_forward (s : XorShift32) : Nat → XorShift32
  | 0 => s
  | n + 1 => XorShift32.step_forward (s.next).2 n

/-- The two-variant mode selector. -/
inductive GenerationMode where
  | Grayscale
  | Colorful
deriving DecidableEq, Repr

/-- An `Rgb` pixel: three channel values (each a `u8` in the program). -/
structure Rgb where
  r : Nat
  g : Nat
  b : Nat
deriving DecidableEq, Repr

/-- `pixel_grayscale`: `let clamped = num % 256;` replicated into the three
channels through `as u8` casts. -/
def pixel_grayscale (num : Nat) : Rgb :=
  Rgb.mk (u8cast (num % 256)) (u8cast (num % 256)) (u8cast (num % 256))

/-- `pixel_colorful`: each channel is isolated by a `u32` left shift
(which truncates at 32 bits) followed by a logical right shift by 24, then
cast to `u8`. -/
def pixel_colorful (num : Nat) : Rgb :=
  Rgb.mk (u8cast (wrap32 (num <<< 24) >>> 24))
    (u8cast (wrap32 (num <<< 16) >>> 24))
    (u8cast (wrap32 (num <<< 8) >>> 24))

/-- The encoder selected by the `match genmode` in `generate_random_pixels`. -/
def enc_of (genmode : GenerationMode) : Nat → Rgb :=
  match genmode with
  | GenerationMode.Grayscale => pixel_grayscale
  | GenerationMode.Colorful => pixel_colorful

/-- The master generator of `generate_random_pixels`:
`XorShift32::new(seed.wrapping_mul(0xDEADBEEF).wrapping_add(0xCAFEBABE)).step_forward(100)`. -/
def master_rng (seed : Nat) : XorShift32 :=
  (XorShift32.new (wrapping_add (wrapping_mul seed 0xDEADBEEF) 0xCAFEBABE)).step_forward 100

/-- One row generator, built from a draw of the master generator:
`XorShift32::new(draw.wrapping_mul(0x4d0df4c7).wrapping_add(0x8980ab2b)).step_forward(100)`. -/
def row_generator (draw : Nat) : XorShift32 :=
  (XorShift32.new (wrapping_add (wrapping_mul draw 0x4d0df4c7) 0x8980ab2b)).step_forward 100

/-- The `(0..height).map(...)` loop building the `rngs` vector: the master
generator is drawn once per row, sequentially, and each draw seeds one row
generator. -/
def schedule_from (m : XorShift32) : Nat → List XorShift32
  | 0 => []
  | n + 1 => row_generator (m.next).1 :: schedule_from (m.next).2 n

/-- The full `rngs` vector of `generate_random_pixels` for a seed and height. -/
def schedule (seed height : Nat) : List XorShift32 :=
  schedule_from (master_rng seed) height

/-- The per-row fill loop: `for pixel in row { let num = rng.next(); *pixel = enc(num); }`,
drawing one value per pixel slot, left to right. -/
def fill_row (enc : Nat → Rgb) (rng : XorShift32) : Nat → List Rgb
  | 0 => []
  | n + 1 => enc (rng.next).1 :: fill_row enc (rng.next).2 n

/-- `generate_random_pixels(seed, width, height, genmode)`: the buffer of
`width * height` slots is partitioned by `par_chunks_exact_mut(width)` into
`height` exact row chunks, chunk `i` zipped with row generator `i` and
overwritten with that generator's sequential draws.  The resulting buffer is
therefore the concatenation of the filled rows in row order. -/
def generate_random_pixels (seed width height : Nat) (genmode : GenerationMode) : List Rgb :=
  match genmode with
  | GenerationMode.Grayscale =>
      ((schedule seed height).map (fun rng => fill_row pixel_grayscale rng width)).flatten
  | GenerationMode.Colorful =>
      ((schedule seed height).map (fun rng => fill_row pixel_colorful rng width)).flatten

/-- The zero pixel `Rgb([0, 0, 0])` used by `vec![Rgb([0, 0, 0]); width * height]`. -/
def zeroPixel : Rgb := Rgb.mk 0 0 0

/-- Overwrite the segment of `buf` starting at `start` with `seg`
(the effect of filling one exact chunk of the buffer in place). -/
def write_seg (buf : List Rgb) (start : Nat) (seg : List Rgb) : List Rgb :=
  buf.take start ++ seg ++ buf.drop (start + seg.length)

/-- The row-parallel fill with an explicit processing order: starting from
the zero-initialized buffer, the row segments listed in `order` are filled,
each from its own bound row generator.  `order = [0, 1, ..., height-1]`
is the sequential schedule; rayon may process the chunks in any order. -/
def fill_in_order (seed width height : Nat) (genmode : GenerationMode)
    (order : List Nat) : List Rgb :=
  order.foldl
    (fun buf r =>
      write_seg buf (r * width)
        (fill_row (enc_of genmode) ((schedule seed height).getD r (XorShift32.new 0)) width))
    (List.replicate (width * height) zeroPixel)

/-- Rust `u32::checked_mul`: `none` exactly when the product overflows. -/
def checked_mul (a b : Nat) : Option Nat :=
  if a * b < UINT32_MOD then some (a * b) else none

/-- The generation-relevant part of `main`: the guard
`width.checked_mul(height).ok_or(...)?` runs before `generate_random_pixels`;
on overflow `main` returns early with an error and no buffer is produced. -/
def run_main (seed width height : Nat) (genmode : GenerationMode) : Option (List Rgb) :=
  match checked_mul width height with
  | none => none
  | some _ => some (generate_random_pixels seed width height genmode)

/-- `generate_random_pixels` with its panic path made explicit: rayon's
`par_chunks_exact_mut(width)` asserts that the chunk size is nonzero, so a
run with `width = 0` (which passes `main`'s `checked_mul` guard, since
`0 * height` does not overflow) panics inside the fill and produces no
buffer; for a nonzero width the fill completes and yields the buffer of
`generate_random_pixels`. -/
def generate_random_pixels_opt (seed width height : Nat) (genmode : GenerationMode) :
    Option (List Rgb) :=
  if width = 0 then none
  else some (generate_random_pixels seed width height genmode)

/-- Modelled from the spec: the mix of one `next()` call as the spec words it —
XOR with itself shifted left by 13, then right by 17, then left by 5, the
shifts as 32-bit unsigned arithmetic (multiplication and division by powers
of two with truncation at 32 bits). -/
def specMix (x : Nat) : Nat :=
  let a := x ^^^ (x * 8192 % UINT32_MOD)
  let b := a ^^^ (a / 131072)
  let c := b ^^^ (b * 32 % UINT32_MOD)
  c

/-- The first mix line as a self-map of the 32-bit value range. -/
def pass1F (a : Fin UINT32_MOD) : Fin UINT32_MOD :=
  Fin.mk (pass1 a.1) (by
    show a.1 ^^^ wrap32 (a.1 <<< 13) < UINT32_MOD
    have ha : a.1 < 2 ^ 32 := Nat.lt_of_lt_of_le a.isLt (by norm_num [UINT32_MOD])
    have hw : wrap32 (a.1 <<< 13) < 2 ^ 32 :=
      Nat.lt_of_lt_of_le (Nat.mod_lt _ (by norm_num [UINT32_MOD])) (by norm_num [UINT32_MOD])
    exact Nat.lt_of_lt_of_le (Nat.xor_lt_two_pow ha hw) (by norm_num [UINT32_MOD]))

/-- The second mix line as a self-map of the 32-bit value range. -/
def pass2F (a : Fin UINT32_MOD) : Fin UINT32_MOD :=
  Fin.mk (pass2 a.1) (by
    show a.1 ^^^ (a.1 >>> 17) < UINT32_MOD
    have ha : a.1 < 2 ^ 32 := Nat.lt_of_lt_of_le a.isLt (by norm_num [UINT32_MOD])
    have hw : a.1 >>> 17 < 2 ^ 32 := by
      rw [Nat.shiftRight_eq_div_pow]
      exact Nat.lt_of_le_of_lt (Nat.div_le_self _ _) ha
    exact Nat.lt_of_lt_of_le (Nat.xor_lt_two_pow ha hw) (by norm_num [UINT32_MOD]))

/-- The third mix line as a self-map of the 32-bit value range. -/
def pass3F (a : Fin UINT32_MOD) : Fin UINT32_MOD :=
  Fin.mk (pass3 a.1) (by
    show a.1 ^^^ wrap32 (a.1 <<< 5) < UINT32_MOD
    have ha : a.1 < 2 ^ 32 := Nat.lt_of_lt_of_le a.isLt (by norm_num [UINT32_MOD])
    have hw : wrap32 (a.1 <<< 5) < 2 ^ 32 :=
      Nat.lt_of_lt_of_le (Nat.mod_lt _ (by norm_num [UINT32_MOD])) (by norm_num [UINT32_MOD])
    exact Nat.lt_of_lt_of_le (Nat.xor_lt_two_pow ha hw) (by norm_num [UINT32_MOD]))

theorem UINT32_MOD_eq : UINT32_MOD = 2 ^ 32 := by norm_num [UINT32_MOD]

theorem UINT32_MOD_pos : 0 < UINT32_MOD := by norm_num [UINT32_MOD]

theorem wrap32_lt (n : Nat) : wrap32 n < UINT32_MOD := Nat.mod_lt _ UINT32_MOD_pos

/-- The state reached by `step_forward` is the `n`-fold iterate of the mix. -/
theorem step_forward_x (s : XorShift32) (n : Nat) :
    (s.step_forward n).x = Nat.iterate nextMix n s.x := by
  induction n generalizing s with
  | zero => rfl
  | succ n ih =>
    rw [XorShift32.step_forward, ih, Function.iterate_succ_apply]
    rfl

/-- `getD` on an append, index inside the left part. -/
theorem getD_append_left {α : Type} {l1 l2 : List α} {k : Nat} (h : k < l1.length) (d : α) :
    (l1 ++ l2).getD k d = l1.getD k d := by
  rw [List.getD_eq_getElem?_getD, List.getD_eq_getElem?_getD, List.getElem?_append_left h]

/-- `getD` on an append, index inside the right part. -/
theorem getD_append_right {α : Type} {l1 l2 : List α} {k : Nat} (h : l1.length ≤ k) (d : α) :
    (l1 ++ l2).getD k d = l2.getD (k - l1.length) d := by
  rw [List.getD_eq_getElem?_getD, List.getD_eq_getElem?_getD, List.getElem?_append_right h]

/-- `schedule_from` yields one generator per requested row. -/
theorem schedule_from_length (n : Nat) (m : XorShift32) : (schedule_from m n).length = n := by
  induction n generalizing m with
  | zero => rfl
  | succ n ih => simp [schedule_from, ih]

/-- Row `i` of `schedule_from m n` is seeded from the `(i+1)`-th draw of `m`. -/
theorem schedule_from_getD (n : Nat) (m : XorShift32) (i : Nat) (hi : i < n) :
    (schedule_from m n).getD i (XorShift32.new 0) =
      row_generator (Nat.iterate nextMix (i + 1) m.x) := by
  induction n generalizing m i with
  | zero => omega
  | succ n ih =>
    cases i with
    | zero => rfl
    | succ i =>
      rw [schedule_from, List.getD_cons_succ, ih m.next.2 i (by omega)]
      have hstep : (m.next).2.x = nextMix m.x := rfl
      rw [hstep, ← Function.iterate_succ_apply]

/-- `fill_row` produces exactly `n` pixels. -/
theorem fill_row_length (enc : Nat → Rgb) (rng : XorShift32) (n : Nat) :
    (fill_row enc rng n).length = n := by
  induction n generalizing rng with
  | zero => rfl
  | succ n ih => simp [fill_row, ih]

/-- Pixel `j` of a filled row encodes the `(j+1)`-th sequential draw of the
row's generator. -/
theorem fill_row_getD (enc : Nat → Rgb) (rng : XorShift32) (n j : Nat) (hj : j < n) :
    (fill_row enc rng n).getD j zeroPixel = enc (Nat.iterate nextMix (j + 1) rng.x) := by
  induction n generalizing rng j with
  | zero => omega
  | succ n ih =>
    cases j with
    | zero => rfl
    | succ j =>
      rw [fill_row, List.getD_cons_succ, ih rng.next.2 j (by omega)]
      have hstep : (rng.next).2.x = nextMix rng.x := rfl
      rw [hstep, ← Function.iterate_succ_apply]

/-- Length of the flattened row-by-row fill. -/
theorem flatten_fill_length (l : List XorShift32) (w : Nat) (enc : Nat → Rgb) :
    ((l.map (fun rng => fill_row enc rng w)).flatten).length = l.length * w := by
  induction l with
  | nil => simp
  | cons a rest ih =>
    rw [List.map_cons, List.flatten_cons, List.length_append, fill_row_length, ih,
      List.length_cons, Nat.succ_mul]
    omega

/-- Indexing the flattened row-by-row fill at `i * w + j` reaches pixel `j`
of row `i`. -/
theorem flatten_fill_getD (l : List XorShift32) (w : Nat) (enc : Nat → Rgb) (i j : Nat)
    (hi : i < l.length) (hj : j < w) :
    ((l.map (fun rng => fill_row enc rng w)).flatten).getD (i * w + j) zeroPixel =
      (fill_row enc (l.getD i (XorShift32.new 0)) w).getD j zeroPixel := by
  induction l generalizing i with
  | nil => simp at hi
  | cons a rest ih =>
    rw [List.map_cons, List.flatten_cons]
    cases i with
    | zero =>
      rw [Nat.zero_mul, Nat.zero_add, getD_append_left (by rw [fill_row_length]; exact hj),
        List.getD_cons_zero]
    | succ i =>
      have hw : (fill_row enc a w).length = w := fill_row_length enc a w
      have hidx : (i + 1) * w + j = w + (i * w + j) := by rw [Nat.succ_mul]; omega
      rw [hidx, getD_append_right (by omega)]
      have hsub : w + (i * w + j) - (fill_row enc a w).length = i * w + j := by omega
      rw [hsub, List.getD_cons_succ]
      exact ih i (by simpa using hi)

/-- Claim C1: one call to `next()` XORs the state with itself shifted left by
13, then right by 17, then left by 5 (all as 32-bit unsigned shifts), and the
post-mix value is both the new stored state and the returned value. -/
theorem claim_C1 (s : XorShift32) :
    (s.next).1 = specMix s.x ∧ (s.next).2.x = (s.next).1 := by
  constructor
  · show nextMix s.x = specMix s.x
    simp only [nextMix, pass1, pass2, pass3, specMix, wrap32, Nat.shiftLeft_eq,
      Nat.shiftRight_eq_div_pow]
  · rfl

/-- Claim C4: the grayscale encoder replicates the raw value modulo 256 into
all three channels, so every grayscale pixel has R = G = B. -/
theorem claim_C4 (num : Nat) :
    pixel_grayscale num = Rgb.mk (num % 256) (num % 256) (num % 256) ∧
      (pixel_grayscale num).r = (pixel_grayscale num).g ∧
      (pixel_grayscale num).g = (pixel_grayscale num).b := by
  refine ⟨?_, rfl, rfl⟩
  simp only [pixel_grayscale, u8cast, Rgb.mk.injEq]
  omega

/-- Claim C5: the colorful encoder extracts byte 0 into R, byte 1 into G and
byte 2 into B, discarding the top byte; on raw value `0x12345678` this gives
R = `0x78`, G = `0x56`, B = `0x34`. -/
theorem claim_C5 :
    (∀ num : Nat,
      pixel_colorful num = Rgb.mk (num % 256) (num / 256 % 256) (num / 65536 % 256)) ∧
    pixel_colorful 0x12345678 = Rgb.mk 0x78 0x56 0x34 := by
  constructor
  · intro num
    simp only [pixel_colorful, u8cast, wrap32, UINT32_MOD, Nat.shiftLeft_eq,
      Nat.shiftRight_eq_div_pow, Rgb.mk.injEq]
    norm_num
    omega
  · decide

/-- Claim C8: when `width * height` overflows 32 bits, `main`'s `checked_mul`
guard rejects the run before any generation work happens and no buffer is
produced. -/
theorem claim_C8 (w h : Nat) (hover : UINT32_MOD ≤ w * h) :
    ∀ (seed : Nat) (mode : GenerationMode), run_main seed w h mode = none := by
  intro seed mode
  unfold run_main checked_mul
  rw [if_neg (by omega)]

/-- Witness for C8 at the spec's concrete rejection case:
width `0xFFFFFFFF`, height 2. -/
theorem claim_C8_witness :
    run_main 42 0xFFFFFFFF 2 GenerationMode.Grayscale = none :=
  claim_C8 0xFFFFFFFF 2 (by norm_num [UINT32_MOD]) 42 GenerationMode.Grayscale

/-- Claim C9: state 0 is a fixed point of the mix, so a generator seeded at 0
returns 0 from `next()`, keeps state 0, and yields 0 on every successive draw,
with no special-casing of the zero state. -/
theorem claim_C9 :
    ((XorShift32.new 0).next).1 = 0 ∧ ((XorShift32.new 0).next).2.x = 0 ∧
      (∀ n : Nat, Nat.iterate nextMix n 0 = 0) ∧
      (∀ n : Nat, ((XorShift32.new 0).step_forward n).x = 0) := by
  have hiter : ∀ n : Nat, Nat.iterate nextMix n 0 = 0 := by
    intro n
    induction n with
    | zero => rfl
    | succ n ih =>
      rw [Function.iterate_succ_apply]
      have h0 : nextMix 0 = 0 := rfl
      rw [h0]
      exact ih
  refine ⟨rfl, rfl, hiter, ?_⟩
  intro n
  rw [step_forward_x]
  exact hiter n

/-- Claim C2: the scheduler yields exactly `h` row generators deterministically
from (seed, h): the master state is the seed passed through wrapping
multiply-add with `0xDEADBEEF`/`0xCAFEBABE` advanced 100 steps,
`step_forward n` applies the mix exactly `n` times, and row `i` is seeded from
the master's `(i+1)`-th draw through a wrapping multiply-add with
`0x4d0df4c7`/`0x8980ab2b`, then advanced 100 steps. -/
theorem claim_C2 (seed h : Nat) :
    (schedule seed h).length = h ∧
    (∀ (s : XorShift32) (n : Nat), (s.step_forward n).x = Nat.iterate nextMix n s.x) ∧
    (∀ i : Nat, i < h →
      (schedule seed h).getD i (XorShift32.new 0) =
        XorShift32.step_forward
          (XorShift32.new
            (wrapping_add
              (wrapping_mul
                (Nat.iterate nextMix (i + 1)
                  (Nat.iterate nextMix 100
                    (wrapping_add (wrapping_mul seed 0xDEADBEEF) 0xCAFEBABE)))
                0x4d0df4c7)
              0x8980ab2b))
          100) := by
  refine ⟨schedule_from_length h (master_rng seed), step_forward_x, ?_⟩
  intro i hi
  rw [schedule, schedule_from_getD h (master_rng seed) i hi]
  have hm : (master_rng seed).x =
      Nat.iterate nextMix 100 (wrapping_add (wrapping_mul seed 0xDEADBEEF) 0xCAFEBABE) := by
    rw [master_rng, step_forward_x]
    rfl
  rw [hm]
  rfl

/-- Witness for C2 at seed 5, height 2, row 1. -/
theorem claim_C2_witness :
    (schedule 5 2).getD 1 (XorShift32.new 0) =
      XorShift32.step_forward
        (XorShift32.new
          (wrapping_add
            (wrapping_mul
              (Nat.iterate nextMix 2
                (Nat.iterate nextMix 100
                  (wrapping_add (wrapping_mul 5 0xDEADBEEF) 0xCAFEBABE)))
              0x4d0df4c7)
            0x8980ab2b))
        100 :=
  (claim_C2 5 2).2.2 1 (by decide)

/-- Counterexample to C3 as stated: width 0 is covered by the claim
(`0 * height` is representable in 32 bits and passes `main`'s `checked_mul`
guard), yet there the fill panics in `par_chunks_exact_mut(0)` and the run
produces no buffer at all. -/
theorem claim_C3_counterexample :
    generate_random_pixels_opt 42 0 5 GenerationMode.Grayscale = none ∧
      checked_mul 0 5 = some 0 ∧ 0 * 5 < UINT32_MOD := by
  decide

/-- Claim C3 (amended): for a nonzero width (with `width * height`
representable in 32 bits) the fill completes, and the generated buffer has
length `width * height`, laid out row-major, with the slot at
`i * width + j` holding the mode-encoding of the `(j+1)`-th sequential draw
of row generator `i`. -/
theorem claim_C3_amended (seed w h : Nat) (mode : GenerationMode) (hw : 0 < w)
    (hwh : w * h < UINT32_MOD) :
    generate_random_pixels_opt seed w h mode = some (generate_random_pixels seed w h mode) ∧
    (generate_random_pixels seed w h mode).length = w * h ∧
    (∀ i j : Nat, i < h → j < w →
      (generate_random_pixels seed w h mode).getD (i * w + j) zeroPixel =
        enc_of mode
          (Nat.iterate nextMix (j + 1) ((schedule seed h).getD i (XorShift32.new 0)).x)) := by
  have hgen : generate_random_pixels seed w h mode =
      ((schedule seed h).map (fun rng => fill_row (enc_of mode) rng w)).flatten := by
    cases mode <;> rfl
  refine ⟨?_, ?_, ?_⟩
  · rw [generate_random_pixels_opt, if_neg (by omega)]
  · rw [hgen, flatten_fill_length, schedule, schedule_from_length]
    exact Nat.mul_comm h w
  · intro i j hi hj
    have hlen : i < (schedule seed h).length := by
      rw [schedule, schedule_from_length]
      exact hi
    rw [hgen, flatten_fill_getD (schedule seed h) w (enc_of mode) i j hlen hj,
      fill_row_getD (enc_of mode) ((schedule seed h).getD i (XorShift32.new 0)) w j hj]

/-- Witness for the amended C3 at the spec's end-to-end scenario: seed 42,
width 4, height 2, Grayscale mode, slot (row 1, column 2). -/
theorem claim_C3_witness :
    generate_random_pixels_opt 42 4 2 GenerationMode.Grayscale =
      some (generate_random_pixels 42 4 2 GenerationMode.Grayscale) ∧
    (generate_random_pixels 42 4 2 GenerationMode.Grayscale).getD (1 * 4 + 2) zeroPixel =
      enc_of GenerationMode.Grayscale
        (Nat.iterate nextMix (2 + 1) ((schedule 42 2).getD 1 (XorShift32.new 0)).x) :=
  ⟨(claim_C3_amended 42 4 2 GenerationMode.Grayscale (by decide) (by decide)).1,
   (claim_C3_amended 42 4 2 GenerationMode.Grayscale (by decide) (by decide)).2.2 1 2
     (by decide) (by decide)⟩

/-- `getD` commutes with `take` below the cut. -/
theorem getD_take {α : Type} {l : List α} {n p : Nat} (h : p < n) (d : α) :
    (l.take n).getD p d = l.getD p d := by
  rw [List.getD_eq_getElem?_getD, List.getD_eq_getElem?_getD, List.getElem?_take_of_lt h]

/-- `getD` on a `drop` shifts the index. -/
theorem getD_drop {α : Type} (l : List α) (n p : Nat) (d : α) :
    (l.drop n).getD p d = l.getD (n + p) d := by
  rw [List.getD_eq_getElem?_getD, List.getD_eq_getElem?_getD, List.getElem?_drop]

/-- Writing a segment that fits inside the buffer preserves the length. -/
theorem write_seg_length (buf seg : List Rgb) (start : Nat)
    (h : start + seg.length ≤ buf.length) :
    (write_seg buf start seg).length = buf.length := by
  simp only [write_seg, List.length_append, List.length_take, List.length_drop]
  omega

/-- Reading inside the freshly written segment gives the segment's content. -/
theorem write_seg_getD_inside (buf seg : List Rgb) (start p : Nat)
    (hfit : start + seg.length ≤ buf.length) (h1 : start ≤ p) (h2 : p < start + seg.length) :
    (write_seg buf start seg).getD p zeroPixel = seg.getD (p - start) zeroPixel := by
  have htake : (buf.take start).length = start := by
    rw [List.length_take]
    omega
  rw [write_seg, List.append_assoc, getD_append_right (by omega), htake,
    getD_append_left (by omega)]

/-- Reading outside the written segment gives the previous buffer content. -/
theorem write_seg_getD_outside (buf seg : List Rgb) (start p : Nat)
    (hfit : start + seg.length ≤ buf.length) (h : p < start ∨ start + seg.length ≤ p) :
    (write_seg buf start seg).getD p zeroPixel = buf.getD p zeroPixel := by
  have htake : (buf.take start).length = start := by
    rw [List.length_take]
    omega
  rcases h with h | h
  · rw [write_seg, List.append_assoc, getD_append_left (by omega), getD_take (by omega)]
  · rw [write_seg, List.append_assoc, getD_append_right (by omega), htake,
      getD_append_right (by omega), getD_drop]
    congr 1
    omega

/-- Two lists agreeing at every position (and in length) are equal. -/
theorem list_eq_of_getD {α : Type} (d : α) :
    ∀ (l1 l2 : List α), l1.length = l2.length →
      (∀ p, p < l1.length → l1.getD p d = l2.getD p d) → l1 = l2 := by
  intro l1
  induction l1 with
  | nil =>
    intro l2 h _
    cases l2 with
    | nil => rfl
    | cons b t2 => simp at h
  | cons a t ih =>
    intro l2 h hp
    cases l2 with
    | nil => simp at h
    | cons b t2 =>
      have h0 : a = b := by
        have := hp 0 (by simp)
        simpa using this
      have ht : t = t2 := by
        refine ih t2 (by simpa using h) ?_
        intro p hp'
        have := hp (p + 1) (by simp; omega)
        simpa using this
      rw [h0, ht]

/-- The scheduled fill preserves the buffer length `w * h` as long as every
row index in the order is a real row. -/
theorem fold_fill_length (seed w h : Nat) (mode : GenerationMode) :
    ∀ (order : List Nat) (buf : List Rgb), buf.length = w * h → (∀ r ∈ order, r < h) →
      (order.foldl
        (fun b r =>
          write_seg b (r * w)
            (fill_row (enc_of mode) ((schedule seed h).getD r (XorShift32.new 0)) w))
        buf).length = w * h := by
  intro order
  induction order with
  | nil =>
    intro buf hbuf _
    simpa using hbuf
  | cons r rest ih =>
    intro buf hbuf hmem
    have hr : r < h := hmem r (List.mem_cons_self r rest)
    have hfit : r * w + (fill_row (enc_of mode) ((schedule seed h).getD r (XorShift32.new 0)) w).length ≤ buf.length := by
      rw [fill_row_length, hbuf]
      have h1 : (r + 1) * w ≤ h * w := Nat.mul_le_mul_right w hr
      have h2 : (r + 1) * w = r * w + w := by rw [Nat.succ_mul]
      have h3 : h * w = w * h := Nat.mul_comm h w
      omega
    rw [List.foldl_cons]
    exact ih _ (by rw [write_seg_length _ _ _ hfit, hbuf])
      (fun r' hr' => hmem r' (List.mem_cons_of_mem r hr'))

/-- Content of the scheduled fill: a slot of row `i` holds row `i`'s fill if
row `i` appears in the order, and the original buffer content otherwise. -/
theorem fold_fill_getD (seed w h : Nat) (mode : GenerationMode) :
    ∀ (order : List Nat) (buf : List Rgb), buf.length = w * h → (∀ r ∈ order, r < h) →
      ∀ i j : Nat, i < h → j < w →
        (order.foldl
          (fun b r =>
            write_seg b (r * w)
              (fill_row (enc_of mode) ((schedule seed h).getD r (XorShift32.new 0)) w))
          buf).getD (i * w + j) zeroPixel =
          if i ∈ order then
            (fill_row (enc_of mode) ((schedule seed h).getD i (XorShift32.new 0)) w).getD j
              zeroPixel
          else buf.getD (i * w + j) zeroPixel := by
  intro order
  induction order with
  | nil =>
    intro buf _ _ i j _ _
    simp
  | cons r rest ih =>
    intro buf hbuf hmem i j hi hj
    have hr : r < h := hmem r (List.mem_cons_self r rest)
    have hfit : r * w + (fill_row (enc_of mode) ((schedule seed h).getD r (XorShift32.new 0)) w).length ≤ buf.length := by
      rw [fill_row_length, hbuf]
      have h1 : (r + 1) * w ≤ h * w := Nat.mul_le_mul_right w hr
      have h2 : (r + 1) * w = r * w + w := by rw [Nat.succ_mul]
      have h3 : h * w = w * h := Nat.mul_comm h w
      omega
    rw [List.foldl_cons,
      ih _ (by rw [write_seg_length _ _ _ hfit, hbuf])
        (fun r' hr' => hmem r' (List.mem_cons_of_mem r hr')) i j hi hj]
    by_cases hir : i ∈ rest
    · have : i ∈ r :: rest := List.mem_cons_of_mem r hir
      simp [hir, this]
    · by_cases hieq : i = r
      · subst hieq
        have hin : i ∈ i :: rest := List.mem_cons_self i rest
        have hmid :
            (write_seg buf (i * w)
              (fill_row (enc_of mode) ((schedule seed h).getD i (XorShift32.new 0)) w)).getD
                (i * w + j) zeroPixel =
              (fill_row (enc_of mode) ((schedule seed h).getD i (XorShift32.new 0)) w).getD
                (i * w + j - i * w) zeroPixel := by
          apply write_seg_getD_inside _ _ _ _ hfit (by omega)
          rw [fill_row_length]
          omega
        rw [if_neg hir, if_pos hin, hmid]
        congr 1
        omega
      · have hnotin : i ∉ r :: rest := by
          intro hc
          rcases List.mem_cons.mp hc with hc | hc
          · exact hieq hc
          · exact hir hc
        have hout :
            (write_seg buf (r * w)
              (fill_row (enc_of mode) ((schedule seed h).getD r (XorShift32.new 0)) w)).getD
                (i * w + j) zeroPixel = buf.getD (i * w + j) zeroPixel := by
          apply write_seg_getD_outside _ _ _ _ hfit
          rw [fill_row_length]
          rcases Nat.lt_or_ge i r with hlt | hge
          · left
            have : (i + 1) * w ≤ r * w := Nat.mul_le_mul_right w hlt
            have h2 : (i + 1) * w = i * w + w := by rw [Nat.succ_mul]
            omega
          · right
            have hgt : r < i := by omega
            have : (r + 1) * w ≤ i * w := Nat.mul_le_mul_right w hgt
            have h2 : (r + 1) * w = r * w + w := by rw [Nat.succ_mul]
            omega
        rw [if_neg hir, if_neg hnotin, hout]

/-- Filling the row segments in any order that visits every row exactly the
rows `0..height` produces exactly the sequential row-major buffer. -/
theorem fill_in_order_eq_generate (seed w h : Nat) (mode : GenerationMode)
    (order : List Nat) (hperm : order.Perm (List.range h)) :
    fill_in_order seed w h mode order = generate_random_pixels seed w h mode := by
  have hmem : ∀ r ∈ order, r < h := fun r hr => List.mem_range.mp (hperm.mem_iff.mp hr)
  have hgen : generate_random_pixels seed w h mode =
      ((schedule seed h).map (fun rng => fill_row (enc_of mode) rng w)).flatten := by
    cases mode <;> rfl
  have hrepl : (List.replicate (w * h) zeroPixel).length = w * h := by
    simp
  have hlen1 : (fill_in_order seed w h mode order).length = w * h :=
    fold_fill_length seed w h mode order _ hrepl hmem
  have hlen2 : (generate_random_pixels seed w h mode).length = w * h := by
    rw [hgen, flatten_fill_length, schedule, schedule_from_length]
    exact Nat.mul_comm h w
  apply list_eq_of_getD zeroPixel _ _ (by rw [hlen1, hlen2])
  intro p hp
  rw [hlen1] at hp
  have hw : 0 < w := by
    rcases Nat.eq_zero_or_pos w with h0 | h0
    · rw [h0] at hp
      simp at hp
    · exact h0
  have hj : p % w < w := Nat.mod_lt _ hw
  have hi : p / w < h := by
    rw [Nat.div_lt_iff_lt_mul hw]
    have : w * h = h * w := Nat.mul_comm w h
    omega
  have hdecomp : p / w * w + p % w = p := by
    have := Nat.div_add_mod p w
    have hcomm : p / w * w = w * (p / w) := Nat.mul_comm _ _
    omega
  rw [← hdecomp, fill_in_order,
    fold_fill_getD seed w h mode order _ hrepl hmem (p / w) (p % w) hi hj,
    if_pos (hperm.mem_iff.mpr (List.mem_range.mpr hi)), hgen,
    flatten_fill_getD (schedule seed h) w (enc_of mode) (p / w) (p % w)
      (by rw [schedule, schedule_from_length]; exact hi) hj]

/-- Claim C7: permuting the order in which row segments are filled never
changes the final buffer; the content depends only on which generator is
bound to which segment. -/
theorem claim_C7 (seed w h : Nat) (mode : GenerationMode) (order : List Nat)
    (hperm : order.Perm (List.range h)) :
    fill_in_order seed w h mode order = generate_random_pixels seed w h mode :=
  fill_in_order_eq_generate seed w h mode order hperm

/-- Witness for C7: filling the two rows of a 3-by-2 image in reversed order
yields the sequential row-major buffer. -/
theorem claim_C7_witness :
    fill_in_order 7 3 2 GenerationMode.Colorful [1, 0] =
      generate_random_pixels 7 3 2 GenerationMode.Colorful :=
  claim_C7 7 3 2 GenerationMode.Colorful [1, 0] (List.isPerm_iff.mp (by decide))

/-- Claim C6: for a fixed (seed, width, height, mode), any two runs of the
scheduling-plus-filling pipeline — whatever order their workers process the
row segments in — produce identical buffers. -/
theorem claim_C6 (seed w h : Nat) (mode : GenerationMode) (o1 o2 : List Nat)
    (h1 : o1.Perm (List.range h)) (h2 : o2.Perm (List.range h)) :
    fill_in_order seed w h mode o1 = fill_in_order seed w h mode o2 :=
  (fill_in_order_eq_generate seed w h mode o1 h1).trans
    (fill_in_order_eq_generate seed w h mode o2 h2).symm

/-- Witness for C6: two concrete processing orders of a 3-by-2 image agree. -/
theorem claim_C6_witness :
    fill_in_order 9 3 2 GenerationMode.Grayscale [0, 1] =
      fill_in_order 9 3 2 GenerationMode.Grayscale [1, 0] :=
  claim_C6 9 3 2 GenerationMode.Grayscale [0, 1] [1, 0]
    (List.isPerm_iff.mp (by decide)) (List.isPerm_iff.mp (by decide))

/-- Right shift distributes over XOR. -/
theorem shiftRight_xor (a b k : Nat) : (a ^^^ b) >>> k = (a >>> k) ^^^ (b >>> k) := by
  apply Nat.eq_of_testBit_eq
  intro i
  simp [Nat.testBit_shiftRight, Nat.testBit_xor]

/-- `pass1` written with an explicit modulus. -/
theorem pass1_eq (x : Nat) : pass1 x = x ^^^ (x <<< 13) % 2 ^ 32 := by
  rw [pass1, wrap32, UINT32_MOD_eq]

/-- `pass3` written with an explicit modulus. -/
theorem pass3_eq (x : Nat) : pass3 x = x ^^^ (x <<< 5) % 2 ^ 32 := by
  rw [pass3, wrap32, UINT32_MOD_eq]

/-- `pass1` keeps 32-bit values 32-bit. -/
theorem pass1_lt {x : Nat} (hx : x < 2 ^ 32) : pass1 x < 2 ^ 32 := by
  rw [pass1_eq]
  exact Nat.xor_lt_two_pow hx (Nat.mod_lt _ (by norm_num))

/-- `pass2` keeps 32-bit values 32-bit. -/
theorem pass2_lt {x : Nat} (hx : x < 2 ^ 32) : pass2 x < 2 ^ 32 := by
  rw [pass2]
  refine Nat.xor_lt_two_pow hx ?_
  rw [Nat.shiftRight_eq_div_pow]
  exact Nat.lt_of_le_of_lt (Nat.div_le_self _ _) hx

/-- `pass3` keeps 32-bit values 32-bit. -/
theorem pass3_lt {x : Nat} (hx : x < 2 ^ 32) : pass3 x < 2 ^ 32 := by
  rw [pass3_eq]
  exact Nat.xor_lt_two_pow hx (Nat.mod_lt _ (by norm_num))

/-- The xor-with-right-shift-17 pass is an involution on 32-bit values
(shifting right twice by 17 moves everything past bit 31). -/
theorem pass2_invol {x : Nat} (hx : x < UINT32_MOD) : pass2 (pass2 x) = x := by
  have hx32 : x < 2 ^ 32 := Nat.lt_of_lt_of_le hx (le_of_eq UINT32_MOD_eq)
  have h34 : x >>> 17 >>> 17 = 0 := by
    rw [← Nat.shiftRight_add, Nat.shiftRight_eq_div_pow]
    exact Nat.div_eq_of_lt (Nat.lt_of_lt_of_le hx32 (by norm_num))
  rw [pass2, pass2, shiftRight_xor, h34, Nat.xor_zero, Nat.xor_assoc, Nat.xor_self,
    Nat.xor_zero]

/-- A xor-with-truncated-left-shift pass is injective on 32-bit values:
the bits of the input are recovered from the output from the low end up. -/
theorem left_mix_inj (k : Nat) (hk : 0 < k) {x y : Nat} (hx : x < 2 ^ 32) (hy : y < 2 ^ 32)
    (h : x ^^^ (x <<< k) % 2 ^ 32 = y ^^^ (y <<< k) % 2 ^ 32) : x = y := by
  apply Nat.eq_of_testBit_eq
  intro i
  induction i using Nat.strong_induction_on with
  | _ i ih =>
    rcases Nat.lt_or_ge i 32 with hi | hi
    · have hbit := congrArg (fun z => z.testBit i) h
      simp only [Nat.testBit_xor, Nat.testBit_mod_two_pow, Nat.testBit_shiftLeft,
        decide_eq_true hi, Bool.true_and] at hbit
      rcases Nat.lt_or_ge i k with hik | hik
      · have hdk : decide (i ≥ k) = false := by
          simp only [decide_eq_false_iff_not]
          omega
        simpa only [hdk, Bool.false_and, Bool.xor_false] using hbit
      · have hdk : decide (i ≥ k) = true := decide_eq_true hik
        have hrec : x.testBit (i - k) = y.testBit (i - k) := ih (i - k) (by omega)
        rw [hdk, Bool.true_and, Bool.true_and, hrec] at hbit
        have h2 := congrArg (fun t => t ^^ y.testBit (i - k)) hbit
        simpa only [Bool.xor_assoc, Bool.xor_self, Bool.xor_false] using h2
    · rw [Nat.testBit_lt_two_pow (Nat.lt_of_lt_of_le hx (Nat.pow_le_pow_right (by norm_num) hi)),
        Nat.testBit_lt_two_pow (Nat.lt_of_lt_of_le hy (Nat.pow_le_pow_right (by norm_num) hi))]

/-- A nonzero 32-bit value has a set bit. -/
theorem exists_testBit_eq_true {x : Nat} (hx : x ≠ 0) : ∃ i, x.testBit i = true := by
  by_contra hc
  push_neg at hc
  apply hx
  apply Nat.eq_of_testBit_eq
  intro i
  rw [Nat.zero_testBit]
  cases hb : x.testBit i with
  | false => rfl
  | true => exact absurd hb (hc i)

/-- A xor-with-truncated-left-shift pass maps nonzero 32-bit values to
nonzero values: the lowest set bit of the input survives the XOR. -/
theorem left_mix_ne_zero (k : Nat) (hk : 0 < k) {x : Nat} (hx32 : x < 2 ^ 32) (hx : x ≠ 0) :
    x ^^^ (x <<< k) % 2 ^ 32 ≠ 0 := by
  have hex : ∃ i, x.testBit i = true := exists_testBit_eq_true hx
  intro h0
  have hvlt : Nat.find hex < 32 := by
    by_contra hge
    push_neg at hge
    have hfalse : x.testBit (Nat.find hex) = false :=
      Nat.testBit_lt_two_pow (Nat.lt_of_lt_of_le hx32 (Nat.pow_le_pow_right (by norm_num) hge))
    rw [Nat.find_spec hex] at hfalse
    simp at hfalse
  have hbit := congrArg (fun z => z.testBit (Nat.find hex)) h0
  simp only [Nat.zero_testBit, Nat.testBit_xor, Nat.testBit_mod_two_pow, Nat.testBit_shiftLeft,
    decide_eq_true hvlt, Bool.true_and, Nat.find_spec hex] at hbit
  rcases Nat.lt_or_ge (Nat.find hex) k with hik | hik
  · have hdk : decide (Nat.find hex ≥ k) = false := by
      simp only [decide_eq_false_iff_not]
      omega
    rw [hdk, Bool.false_and, Bool.xor_false] at hbit
    simp at hbit
  · have hlow : x.testBit (Nat.find hex - k) = false := by
      cases hb : x.testBit (Nat.find hex - k) with
      | false => rfl
      | true => exact absurd hb (Nat.find_min hex (by omega))
    have hdk : decide (Nat.find hex ≥ k) = true := decide_eq_true hik
    rw [hdk, Bool.true_and, hlow, Bool.xor_false] at hbit
    simp at hbit

/-- The xor-with-right-shift pass maps nonzero values to nonzero values:
`x = x >>> 17` would force `x` to equal a strictly smaller number. -/
theorem pass2_ne_zero {x : Nat} (hx : x ≠ 0) : pass2 x ≠ 0 := by
  intro h0
  rw [pass2] at h0
  have hxy : x = x >>> 17 := Nat.xor_eq_zero.mp h0
  rw [Nat.shiftRight_eq_div_pow] at hxy
  have hlt : x / 2 ^ 17 < x := Nat.div_lt_self (Nat.pos_of_ne_zero hx) (by norm_num)
  omega

/-- One full mix keeps 32-bit values 32-bit. -/
theorem nextMix_lt {x : Nat} (hx : x < 2 ^ 32) : nextMix x < 2 ^ 32 :=
  pass3_lt (pass2_lt (pass1_lt hx))

/-- One full mix maps nonzero 32-bit states to nonzero states. -/
theorem nextMix_ne_zero {x : Nat} (hx32 : x < 2 ^ 32) (hx : x ≠ 0) : nextMix x ≠ 0 := by
  have h1 : pass1 x ≠ 0 := by
    rw [pass1_eq]
    exact left_mix_ne_zero 13 (by norm_num) hx32 hx
  have h2 : pass2 (pass1 x) ≠ 0 := pass2_ne_zero h1
  have h2lt : pass2 (pass1 x) < 2 ^ 32 := pass2_lt (pass1_lt hx32)
  rw [nextMix, pass3_eq]
  exact left_mix_ne_zero 5 (by norm_num) h2lt h2

/-- Iterating the mix never leaves the nonzero 32-bit states. -/
theorem iterate_nextMix_ne_zero :
    ∀ (n : Nat) {x : Nat}, x < 2 ^ 32 → x ≠ 0 →
      Nat.iterate nextMix n x ≠ 0 ∧ Nat.iterate nextMix n x < 2 ^ 32 := by
  intro n
  induction n with
  | zero =>
    intro x hx32 hx
    exact ⟨hx, hx32⟩
  | succ n ih =>
    intro x hx32 hx
    rw [Function.iterate_succ_apply]
    exact ih (nextMix_lt hx32) (nextMix_ne_zero hx32 hx)

/-- The first mix line is a bijection of the 32-bit value range. -/
theorem pass1F_bijective : Function.Bijective pass1F := by
  rw [← Finite.injective_iff_bijective]
  intro a b hab
  apply Fin.ext
  have hv : pass1 a.1 = pass1 b.1 := congrArg Fin.val hab
  rw [pass1_eq, pass1_eq] at hv
  exact left_mix_inj 13 (by norm_num)
    (Nat.lt_of_lt_of_le a.isLt (le_of_eq UINT32_MOD_eq))
    (Nat.lt_of_lt_of_le b.isLt (le_of_eq UINT32_MOD_eq)) hv

/-- The second mix line is a bijection of the 32-bit value range. -/
theorem pass2F_bijective : Function.Bijective pass2F := by
  have hinv : Function.Involutive pass2F := by
    intro a
    apply Fin.ext
    show pass2 (pass2 a.1) = a.1
    exact pass2_invol a.isLt
  exact hinv.bijective

/-- The third mix line is a bijection of the 32-bit value range. -/
theorem pass3F_bijective : Function.Bijective pass3F := by
  rw [← Finite.injective_iff_bijective]
  intro a b hab
  apply Fin.ext
  have hv : pass3 a.1 = pass3 b.1 := congrArg Fin.val hab
  rw [pass3_eq, pass3_eq] at hv
  exact left_mix_inj 5 (by norm_num)
    (Nat.lt_of_lt_of_le a.isLt (le_of_eq UINT32_MOD_eq))
    (Nat.lt_of_lt_of_le b.isLt (le_of_eq UINT32_MOD_eq)) hv

/-- Counterexample to C10 as stated: the claim asserts that each of the three
xor-shift passes is a bijection whose only fixed point is 0, but the second
pass (`x ^= x >> 17`) fixes the nonzero 32-bit value 1. -/
theorem claim_C10_counterexample :
    pass2 1 = 1 ∧ (1 : Nat) ≠ 0 ∧ (1 : Nat) < UINT32_MOD := by
  decide

/-- Claim C10 (amended): each of the three xor-shift passes is a bijection of
the 32-bit values that fixes 0 and maps nonzero values to nonzero values
(though a single pass may have further, nonzero fixed points); hence `next()`
maps every nonzero 32-bit state to a nonzero stored state and returned value,
and no number of `next()` or `step_forward(n)` applications ever reaches the
zero fixed point from a nonzero state. -/
theorem claim_C10_amended :
    (Function.Bijective pass1F ∧ Function.Bijective pass2F ∧ Function.Bijective pass3F) ∧
    (pass1 0 = 0 ∧ pass2 0 = 0 ∧ pass3 0 = 0) ∧
    (∀ x : Nat, x < UINT32_MOD → x ≠ 0 → pass1 x ≠ 0 ∧ pass2 x ≠ 0 ∧ pass3 x ≠ 0) ∧
    (∀ x : Nat, x < UINT32_MOD → x ≠ 0 →
      nextMix x ≠ 0 ∧ nextMix x < UINT32_MOD ∧ ∀ n : Nat, Nat.iterate nextMix n x ≠ 0) ∧
    (∀ (s : XorShift32) (n : Nat), s.x < UINT32_MOD → s.x ≠ 0 →
      (s.next).1 ≠ 0 ∧ (s.next).2.x ≠ 0 ∧ (s.step_forward n).x ≠ 0) := by
  have hcast : ∀ {y : Nat}, y < UINT32_MOD → y < 2 ^ 32 := by
    intro y hy
    exact Nat.lt_of_lt_of_le hy (le_of_eq UINT32_MOD_eq)
  refine ⟨⟨pass1F_bijective, pass2F_bijective, pass3F_bijective⟩,
    ⟨by decide, by decide, by decide⟩, ?_, ?_, ?_⟩
  · intro x hxm hx
    have hx32 := hcast hxm
    refine ⟨?_, pass2_ne_zero hx, ?_⟩
    · rw [pass1_eq]
      exact left_mix_ne_zero 13 (by norm_num) hx32 hx
    · rw [pass3_eq]
      exact left_mix_ne_zero 5 (by norm_num) hx32 hx
  · intro x hxm hx
    have hx32 := hcast hxm
    refine ⟨nextMix_ne_zero hx32 hx, ?_, fun n => (iterate_nextMix_ne_zero n hx32 hx).1⟩
    rw [UINT32_MOD_eq]
    exact nextMix_lt hx32
  · intro s n hxm hx
    have hx32 := hcast hxm
    refine ⟨nextMix_ne_zero hx32 hx, nextMix_ne_zero hx32 hx, ?_⟩
    rw [step_forward_x]
    exact (iterate_nextMix_ne_zero n hx32 hx).1

/-- Witness for the amended C10 at state 1. -/
theorem claim_C10_witness :
    nextMix 1 ≠ 0 ∧ Nat.iterate nextMix 3 1 ≠ 0 ∧
      ((XorShift32.new 1).step_forward 5).x ≠ 0 :=
  ⟨(claim_C10_amended.2.2.2.1 1 (by decide) (by decide)).1,
   (claim_C10_amended.2.2.2.1 1 (by decide) (by decide)).2.2 3,
   (claim_C10_amended.2.2.2.2 (XorShift32.new 1) 5 (by decide) (by decide)).2.2⟩
